import Mathlib

/-!
Shallow embedding of the duplicate-file cleanup engine of this repository
(`cleanup_duplicates.py`, with the grouping logic shared by
`find_duplicates.py`).  Paths and file names are Lean `String`s; Python
string operations are modelled on the underlying character lists so that
every definition is executable.  Timestamps are rationals (seconds since
the epoch); the ambient wall clock `datetime.now().timestamp()` is passed
explicitly as a `now : ℚ` parameter.  The filesystem seen by one run is
modelled as the list of file records the walker enumerates, in walk order;
files created during a run are appended at the end of that enumeration.
-/

/-- Python `s.split("/")` (with `os.sep = "/"`), on character lists:
splitting the empty string yields `[""]`, separators at the ends yield
empty components. -/
def splitSlash : List Char → List (List Char)
  | [] => [[]]
  | c :: cs =>
    match splitSlash cs with
    | [] => [[]]
    | h :: t => if c = '/' then [] :: h :: t else (c :: h) :: t

/-- Python `sub in s`: substring containment. -/
def strContains (s sub : String) : Bool :=
  s.toList.tails.any fun t => sub.toList.isPrefixOf t

/-- Python `s.startswith(pre)`. -/
def strStartsWith (s pre : String) : Bool :=
  pre.toList.isPrefixOf s.toList

/-- Python `s.lower()`, restricted to ASCII case folding. -/
def strLower (s : String) : String :=
  (s.toList.map Char.toLower).asString

/-- Python `os.path.basename(p)`: the part after the last `/`. -/
def basename (p : String) : String :=
  ((splitSlash p.toList).getLastD []).asString

/-- One record produced by `get_file_info`: path, base name, byte size,
and the `st_mtime` / `st_ctime` stamps. -/
structure FileInfo where
  path : String
  name : String
  size : ℕ
  modified : ℚ
  created : ℚ

/-- The grouping key `(file_info['name'], file_info['size'])`. -/
def fdKey (f : FileInfo) : String × ℕ := (f.name, f.size)

/-- Constructor arguments of `DuplicateCleanup` plus the run-specific
data that the Python code derives from the ambient environment:
the interactive confirmation answer and the timestamped log file's
identity (name, and the size/stamps it will have on disk). -/
structure Config where
  dry_run : Bool
  create_backup : Bool
  user_confirms : Bool
  workspace_dir : String
  log_name : String
  log_size : ℕ
  log_modified : ℚ
  log_created : ℚ

/-- `self.backup_dir = self.workspace_dir / "backup_before_cleanup"`. -/
def Config.backup_dir (cfg : Config) : String :=
  cfg.workspace_dir ++ "/backup_before_cleanup"

/-- The `FileInfo` record of the JSON log file once `save_log` has
written it (`self.log_file = workspace_dir / "cleanup_log_<ts>.json"`). -/
def log_file_info (cfg : Config) : FileInfo :=
  ⟨cfg.workspace_dir ++ "/" ++ cfg.log_name, cfg.log_name,
   cfg.log_size, cfg.log_modified, cfg.log_created⟩

/-- `self.preserve_dirs` (a Python set; only membership is used). -/
def preserve_dirs : List String :=
  [".git", ".venv", "node_modules", "__pycache__", ".pytest_cache"]

/-- `self.critical_files`. -/
def critical_files : List String :=
  ["README.md", "package.json", "requirements.txt", ".gitignore",
   "LICENSE", "Makefile"]

/-- `is_critical_file`: membership in `self.critical_files`. -/
def is_critical_file (filename : String) : Bool :=
  critical_files.contains filename

/-- Rule 1: `not any(preserve in str(path) for preserve in self.preserve_dirs)`. -/
def preservation_rule1 (p : String) : Bool :=
  !(preserve_dirs.any fun d => strContains p d)

/-- Rule 2: `len(str(path).split(os.sep)) < 10`. -/
def preservation_rule2 (p : String) : Bool :=
  decide ((splitSlash p.toList).length < 10)

/-- Rule 3: `"Schedule & Logistics" not in str(path)`. -/
def preservation_rule3 (p : String) : Bool :=
  !(strContains p "Schedule & Logistics")

/-- Rule 4: `not str(path).startswith(".")` — note: tested on the whole
path string, not on the base name. -/
def preservation_rule4 (p : String) : Bool :=
  !(strStartsWith p ".")

/-- Rule 5: `"original" in str(path).lower()`. -/
def preservation_rule5 (p : String) : Bool :=
  strContains (strLower p) "original"

/-- Rule 6: `"backup" not in str(path).lower()`. -/
def preservation_rule6 (p : String) : Bool :=
  !(strContains (strLower p) "backup")

/-- The scoring loop `for i, rule in enumerate(self.preservation_rules):
if rule(path): score += len(self.preservation_rules) - i`, with the six
rules at indices 0..5 contributing 6,5,4,3,2,1 points. -/
def rule_score (p : String) : ℚ :=
  (if preservation_rule1 p then 6 else 0)
    + (if preservation_rule2 p then 5 else 0)
    + (if preservation_rule3 p then 4 else 0)
    + (if preservation_rule4 p then 3 else 0)
    + (if preservation_rule5 p then 2 else 0)
    + (if preservation_rule6 p then 1 else 0)

/-- The age bonus term
`(datetime.now().timestamp() - file_info['modified']) / 86400 / 365`. -/
def age_bonus (now modified : ℚ) : ℚ :=
  (now - modified) / 86400 / 365

/-- Total preservation score of one candidate: rule points plus the age
bonus. -/
def file_score (now : ℚ) (f : FileInfo) : ℚ :=
  rule_score f.path + (now - f.modified) / 86400 / 365

/-- `select_file_to_keep`: groups of size at most one return their sole
member (or nothing); otherwise the scored candidates are sorted by score,
highest first, with Python's stable sort (equal scores keep input order,
which the insertion sort below with a non-strict comparison reproduces),
and the head is kept. -/
def select_file_to_keep (now : ℚ) (file_list : List FileInfo) : Option FileInfo :=
  if file_list.length ≤ 1 then file_list.head?
  else
    (List.insertionSort (fun p q : ℚ × FileInfo => q.1 ≤ p.1)
        (file_list.map fun f => (file_score now f, f))).head?.map (·.2)

/-- One step of the `defaultdict(list)` aggregation in `find_duplicates`:
append the record to its key's list, keys in first-insertion order. -/
def addToGroups (gs : List ((String × ℕ) × List FileInfo)) (f : FileInfo) :
    List ((String × ℕ) × List FileInfo) :=
  match gs with
  | [] => [(fdKey f, [f])]
  | (k, l) :: rest =>
    if k = fdKey f then (k, l ++ [f]) :: rest else (k, l) :: addToGroups rest f

/-- The full `file_groups` mapping built by the scan loop, as an
insertion-ordered association list. -/
def file_groups (files : List FileInfo) : List ((String × ℕ) × List FileInfo) :=
  files.foldl addToGroups []

/-- `find_duplicates` filtering: keep the groups with more than one
member (`len(files) > 1`). -/
def find_duplicates (files : List FileInfo) : List ((String × ℕ) × List FileInfo) :=
  (file_groups files).filter fun g => 1 < g.2.length

/-- One entry of the cleanup plan. -/
structure PlanItem where
  filename : String
  size : ℕ
  keep : FileInfo
  delete : List FileInfo
  space_saved : ℕ

/-- The `self.stats` dictionary. -/
structure RunStats where
  files_analyzed : ℕ
  duplicate_groups : ℕ
  files_to_delete : ℕ
  space_to_save : ℕ
  files_preserved : ℕ
  errors : List String

/-- One element of `self.actions`, appended on a successful deletion. -/
structure ActionLogEntry where
  file : String
  size : ℕ
  timestamp : ℚ
  kept_copy : String

/-- `plan_cleanup`: iterate the duplicate groups in insertion order,
skipping critical filenames (counting `len(file_list) - 1` preserved
files), otherwise selecting the keeper, collecting the other members by
path inequality, and accumulating the deletion/space counters. -/
def plan_cleanup (now : ℚ) :
    List ((String × ℕ) × List FileInfo) → RunStats → List PlanItem × RunStats
  | [], stats => ([], stats)
  | ((filename, size), file_list) :: rest, stats =>
    if is_critical_file filename then
      plan_cleanup now rest
        {stats with files_preserved := stats.files_preserved + (file_list.length - 1)}
    else
      match select_file_to_keep now file_list with
      | none => plan_cleanup now rest stats
      | some file_to_keep =>
        let files_to_delete := file_list.filter fun f => f.path != file_to_keep.path
        if files_to_delete.isEmpty then plan_cleanup now rest stats
        else
          let r := plan_cleanup now rest
            {stats with
              files_to_delete := stats.files_to_delete + files_to_delete.length,
              space_to_save := stats.space_to_save + size * files_to_delete.length}
          (⟨filename, size, file_to_keep, files_to_delete,
            size * files_to_delete.length⟩ :: r.1, r.2)

/-- Mutable state threaded through `execute_cleanup`: the filesystem (as
the walk enumeration of existing files), the backup copies created so
far, the action log, the stats (whose `errors` list the handlers append
to), and `success_count`. -/
structure ExecState where
  fs : List FileInfo
  backups : List String
  actions : List ActionLogEntry
  stats : RunStats
  success_count : ℕ

/-- `Path(file_path).relative_to(self.workspace_dir)` for a path lying
under the workspace: drop the workspace prefix and its separator. -/
def rel_to (base p : String) : String :=
  (p.toList.drop (base.toList.length + 1)).asString

/-- The mirrored destination `self.backup_dir / rel_path`. -/
def backup_dest (cfg : Config) (p : String) : String :=
  cfg.backup_dir ++ "/" ++ rel_to cfg.workspace_dir p

/-- The `create_backup` METHOD of the class (lines 186-205): early-exits
successfully when the backup flag is off, otherwise copies the file into
the mirror and reports failure (recording an error) when the copy
raises.  In the running code this method is unreachable: the boolean
attribute `self.create_backup` assigned in `__init__` shadows it, so
`execute_cleanup` can never call it. -/
def create_backup_method (cfg : Config) (st : ExecState) (p : String) :
    Bool × ExecState :=
  if !cfg.create_backup then (true, st)
  else if st.fs.any fun fi => fi.path = p then
    (true, {st with backups := st.backups ++ [backup_dest cfg p]})
  else
    (false, {st with stats.errors :=
      st.stats.errors ++ ["Backup failed for " ++ p ++ ": copy error"]})

/-- The error string recorded when the shadowed-attribute call
`self.create_backup(file_path)` raises
`TypeError: bool object is not callable` and the per-file handler
formats it as a deletion failure. -/
def delete_failed_type_error (p : String) : String :=
  "Failed to delete " ++ p ++ ": TypeError: bool object is not callable"

/-- The error string recorded when `os.remove` raises because the path
no longer exists. -/
def delete_failed_missing (p : String) : String :=
  "Failed to delete " ++ p ++ ": FileNotFoundError"

/-- The body of the per-file `try` block in `execute_cleanup` (lines
255-285).  When the backup flag is set, `if not self.create_backup(file_path)`
calls the boolean attribute that shadows the method, raising `TypeError`
inside the `try`; the handler appends the error and the loop moves on —
`os.remove` is never reached.  With the flag off, the file is removed if
it exists (appending an `ActionLogEntry`), else the failure is recorded. -/
def exec_delete (cfg : Config) (now : ℚ) (kept_copy : String)
    (st : ExecState) (f : FileInfo) : ExecState :=
  if cfg.create_backup then
    {st with stats.errors := st.stats.errors ++ [delete_failed_type_error f.path]}
  else if st.fs.any fun fi => fi.path = f.path then
    {st with
      fs := st.fs.eraseP fun fi => fi.path = f.path,
      actions := st.actions ++ [⟨f.path, f.size, now, kept_copy⟩],
      success_count := st.success_count + 1}
  else
    {st with stats.errors := st.stats.errors ++ [delete_failed_missing f.path]}

/-- The inner loop `for file_to_delete in item['delete']`. -/
def exec_deletes (cfg : Config) (now : ℚ) (kept_copy : String) :
    List FileInfo → ExecState → ExecState
  | [], st => st
  | f :: rest, st => exec_deletes cfg now kept_copy rest (exec_delete cfg now kept_copy st f)

/-- The outer loop `for item in cleanup_plan`. -/
def exec_items (cfg : Config) (now : ℚ) : List PlanItem → ExecState → ExecState
  | [], st => st
  | item :: rest, st =>
    exec_items cfg now rest (exec_deletes cfg now item.keep.path item.delete st)

/-- `execute_cleanup`: in dry-run mode return immediately with no state
change; otherwise run the plan. -/
def execute_cleanup (cfg : Config) (now : ℚ) (plan : List PlanItem)
    (st : ExecState) : ExecState :=
  if cfg.dry_run then st else exec_items cfg now plan st

/-- Result of one `run()` invocation: the filesystem afterwards, the
computed plan, the final stats and action log, the backups made, and
whether `save_log` wrote the log file. -/
structure RunResult where
  fs : List FileInfo
  plan : List PlanItem
  stats : RunStats
  actions : List ActionLogEntry
  backups : List String
  log_written : Bool

/-- `run()` (lines 309-350): scan, return early when no duplicates were
found (before `save_log`), otherwise plan, preview (print only), gate
live execution behind the interactive confirmation (a negative answer
returns before `save_log`), execute, and write the log file into the
workspace — the written log is a new file the next scan will see, and is
modelled appended at the end of the walk enumeration. -/
def run (cfg : Config) (now : ℚ) (fs : List FileInfo) : RunResult :=
  let dups := find_duplicates fs
  let stats0 : RunStats :=
    ⟨fs.length, dups.length, 0, 0, 0, []⟩
  if dups.isEmpty then ⟨fs, [], stats0, [], [], false⟩
  else
    let pr := plan_cleanup now dups stats0
    if !pr.1.isEmpty && !cfg.dry_run && !cfg.user_confirms then
      ⟨fs, pr.1, pr.2, [], [], false⟩
    else
      let st := execute_cleanup cfg now pr.1 ⟨fs, [], [], pr.2, 0⟩
      ⟨st.fs ++ [log_file_info cfg], pr.1, st.stats, st.actions, st.backups, true⟩

/-- Abstract filesystem node kinds, for the `main()` workspace check. -/
inductive FSNode where
  | file : FSNode
  | dir : FSNode
deriving DecidableEq

/-- `os.path.exists(args.workspace)` over an abstract name-to-node map. -/
def workspace_exists (fs : String → Option FSNode) (p : String) : Bool :=
  (fs p).isSome

/-- The startup gate of `main()` (lines 395-397): exit status 1 when the
workspace path does not exist, otherwise proceed to construct the engine
and scan.  The code tests only `os.path.exists` — there is no `isdir`
check. -/
def main_gate (fs : String → Option FSNode) (p : String) : Except ℕ Unit :=
  if workspace_exists fs p then Except.ok () else Except.error 1

/-! ### Concrete sample data used to instantiate the theorems -/

/-- A sample file record: `ws/a/report.txt`, 100 bytes. -/
def fileA : FileInfo := ⟨"ws/a/report.txt", "report.txt", 100, 0, 0⟩

/-- A duplicate of `fileA` by `(name, size)` at a different path. -/
def fileB : FileInfo := ⟨"ws/b/report.txt", "report.txt", 100, 0, 0⟩

/-- The same path as `fileB` with a different (older) modification time. -/
def fileB2 : FileInfo := ⟨"ws/b/report.txt", "report.txt", 100, 31536000, 31536000⟩

/-- A scan containing one duplicate pair. -/
def dupFiles : List FileInfo := [fileA, fileB]

/-- A dry-run configuration over workspace `ws`. -/
def cfgDry : Config :=
  ⟨true, false, true, "ws", "cleanup_log_20260101_000000.json", 7, 0, 0⟩

/-- A live (confirmed) configuration with the backup flag set. -/
def cfgLiveBackup : Config :=
  ⟨false, true, true, "ws", "cleanup_log_20260101_000000.json", 7, 0, 0⟩

/-- A one-item cleanup plan deleting `fileA` and keeping `fileB`. -/
def samplePlan : List PlanItem := [⟨"report.txt", 100, fileB, [fileA], 100⟩]

/-- Execution state at the start of `execute_cleanup` for `dupFiles`. -/
def sampleState : ExecState := ⟨[fileA, fileB], [], [], ⟨2, 1, 1, 100, 0, []⟩, 0⟩

/-- The rule-point total without rule 4's contribution. -/
def rule_score_without4 (p : String) : ℚ :=
  (if preservation_rule1 p then 6 else 0)
    + (if preservation_rule2 p then 5 else 0)
    + (if preservation_rule3 p then 4 else 0)
    + (if preservation_rule5 p then 2 else 0)
    + (if preservation_rule6 p then 1 else 0)

/-- An abstract filesystem in which the workspace path names a regular
file, not a directory. -/
def fsWithFile : String → Option FSNode :=
  fun q => if q = "ws" then some FSNode.file else none

/-! ### Properties of the preservation scorer -/

/-- The head of the stable score-descending insertion sort of the scored
candidates is the first candidate attaining the maximal key. -/
lemma sorted_scored_head (key : FileInfo → ℚ) :
    ∀ l : List FileInfo, l ≠ [] →
      ∃ b pre post,
        (List.insertionSort (fun p q : ℚ × FileInfo => q.1 ≤ p.1)
            (l.map fun a => (key a, a))).head? = some (key b, b) ∧
        l = pre ++ b :: post ∧
        (∀ a ∈ pre, key a < key b) ∧
        (∀ a ∈ l, key a ≤ key b) := by
  intro l
  induction l with
  | nil => intro h; exact absurd rfl h
  | cons x xs ih =>
    intro _
    rcases eq_or_ne xs [] with hxs | hxs
    · subst hxs
      refine ⟨x, [], [], ?_, rfl, by simp, by simp⟩
      simp [List.insertionSort, List.orderedInsert]
    · obtain ⟨b, pre, post, hhead, hdec, hpre, hall⟩ := ih hxs
      have hsort :
          (List.insertionSort (fun p q : ℚ × FileInfo => q.1 ≤ p.1)
              ((x :: xs).map fun a => (key a, a)))
            = List.orderedInsert (fun p q : ℚ × FileInfo => q.1 ≤ p.1) (key x, x)
                (List.insertionSort (fun p q : ℚ × FileInfo => q.1 ≤ p.1)
                  (xs.map fun a => (key a, a))) := by
        simp [List.insertionSort]
      rcases hs : (List.insertionSort (fun p q : ℚ × FileInfo => q.1 ≤ p.1)
          (xs.map fun a => (key a, a))) with _ | ⟨p, t⟩
      · rw [hs] at hhead; simp at hhead
      · rw [hs] at hhead
        have hp : p = (key b, b) := by simpa using hhead
        subst hp
        by_cases hbx : key b ≤ key x
        · refine ⟨x, [], xs, ?_, rfl, by simp, ?_⟩
          · rw [hsort, hs]
            simp [List.orderedInsert, hbx]
          · intro a ha
            rcases List.mem_cons.mp ha with rfl | ha
            · exact le_refl _
            · exact le_trans (hall a ha) hbx
        · have hxb : key x < key b := not_le.mp hbx
          refine ⟨b, x :: pre, post, ?_, by rw [hdec, List.cons_append], ?_, ?_⟩
          · rw [hsort, hs]
            simp [List.orderedInsert, hbx]
          · intro a ha
            rcases List.mem_cons.mp ha with rfl | ha
            · exact hxb
            · exact hpre a ha
          · intro a ha
            rcases List.mem_cons.mp ha with rfl | ha
            · exact le_of_lt hxb
            · exact hall a ha

/-- The selected keeper exists for a nonempty group, is a member, and is
the first member attaining the maximal total score. -/
lemma select_first_max (now : ℚ) (fl : List FileInfo) (h : fl ≠ []) :
    ∃ keep pre post, select_file_to_keep now fl = some keep ∧
      fl = pre ++ keep :: post ∧
      (∀ a ∈ pre, file_score now a < file_score now keep) ∧
      (∀ a ∈ fl, file_score now a ≤ file_score now keep) := by
  by_cases hlen : fl.length ≤ 1
  · rcases fl with _ | ⟨x, xs⟩
    · exact absurd rfl h
    · rcases xs with _ | ⟨y, ys⟩
      · exact ⟨x, [], [], by simp [select_file_to_keep], rfl, by simp, by simp⟩
      · simp at hlen
  · obtain ⟨b, pre, post, hhead, hdec, hpre, hall⟩ := sorted_scored_head (file_score now) fl h
    refine ⟨b, pre, post, ?_, hdec, hpre, hall⟩
    simp [select_file_to_keep, hlen, hhead]

/-- The chosen keeper is a member of its group. -/
lemma select_mem (now : ℚ) (fl : List FileInfo) (keep : FileInfo)
    (h : select_file_to_keep now fl = some keep) : keep ∈ fl := by
  rcases eq_or_ne fl [] with rfl | hne
  · simp [select_file_to_keep] at h
  · obtain ⟨k, pre, post, hsel, hdec, -, -⟩ := select_first_max now fl hne
    rw [h] at hsel
    obtain rfl : keep = k := by simpa using hsel
    rw [hdec]
    exact List.mem_append_right _ (List.mem_cons_self _ _)

/-- A nonempty group always yields a keeper. -/
lemma select_isSome (now : ℚ) (fl : List FileInfo) (h : fl ≠ []) :
    ∃ keep, select_file_to_keep now fl = some keep := by
  obtain ⟨k, -, -, hsel, -, -, -⟩ := select_first_max now fl h
  exact ⟨k, hsel⟩

/-- Shifting every score by the same constant commutes with ordered
insertion, because the comparison only looks at score differences. -/
lemma orderedInsert_shift (c : ℚ) (x : ℚ × FileInfo) :
    ∀ l : List (ℚ × FileInfo),
      List.orderedInsert (fun p q : ℚ × FileInfo => q.1 ≤ p.1) (x.1 + c, x.2)
          (l.map fun p => (p.1 + c, p.2))
        = (List.orderedInsert (fun p q : ℚ × FileInfo => q.1 ≤ p.1) x l).map
            fun p => (p.1 + c, p.2) := by
  intro l
  induction l with
  | nil => simp [List.orderedInsert]
  | cons y t ih =>
    by_cases h : y.1 ≤ x.1
    · simp [List.orderedInsert, h, add_le_add_iff_right]
    · simp [List.orderedInsert, h, add_le_add_iff_right, ih]

/-- Shifting every score by the same constant commutes with the whole
stable sort. -/
lemma insertionSort_shift (c : ℚ) :
    ∀ l : List (ℚ × FileInfo),
      List.insertionSort (fun p q : ℚ × FileInfo => q.1 ≤ p.1)
          (l.map fun p => (p.1 + c, p.2))
        = (List.insertionSort (fun p q : ℚ × FileInfo => q.1 ≤ p.1) l).map
            fun p => (p.1 + c, p.2) := by
  intro l
  induction l with
  | nil => simp [List.insertionSort]
  | cons y t ih =>
    simp only [List.map_cons, List.insertionSort, ih]
    exact orderedInsert_shift c y _

/-- Evaluating the scorer at a different wall-clock instant shifts every
candidate's total score by the same constant. -/
lemma file_score_shift (now now₂ : ℚ) (f : FileInfo) :
    file_score now f = file_score now₂ f + (now - now₂) / 86400 / 365 := by
  unfold file_score
  ring

/-- The selected keeper does not depend on the wall-clock instant at
which the scorer runs. -/
lemma select_now_invariant (now now₂ : ℚ) (fl : List FileInfo) :
    select_file_to_keep now fl = select_file_to_keep now₂ fl := by
  unfold select_file_to_keep
  by_cases hlen : fl.length ≤ 1
  · simp [hlen]
  · have hmap : (fl.map fun f => (file_score now f, f))
        = (fl.map fun f => (file_score now₂ f, f)).map
            fun p => (p.1 + (now - now₂) / 86400 / 365, p.2) := by
      rw [List.map_map]
      exact List.map_congr_left fun f _ => by
        simp [Function.comp, file_score_shift now now₂ f]
    simp only [hlen, if_false, hmap, insertionSort_shift]
    rw [List.head?_map, Option.map_map]
    rfl

/-! ### Properties of the grouping engine -/

/-- Invariant of the aggregation loop after processing the records `P`:
every group holds exactly the processed records with its key, in
discovery order; keys are pairwise distinct; every processed record has
a group. -/
def GroupsInv (P : List FileInfo) (gs : List ((String × ℕ) × List FileInfo)) : Prop :=
  (∀ k l, (k, l) ∈ gs → l = P.filter (fun f => fdKey f == k) ∧ l ≠ []) ∧
  (gs.map Prod.fst).Nodup ∧
  (∀ f ∈ P, ∃ l, (fdKey f, l) ∈ gs)

lemma filter_append_single (P : List FileInfo) (f : FileInfo) (k : String × ℕ) :
    (P ++ [f]).filter (fun g => fdKey g == k)
      = P.filter (fun g => fdKey g == k) ++ if fdKey f = k then [f] else [] := by
  by_cases h : fdKey f = k <;> simp [List.filter_append, List.filter_cons, h]

/-- Case analysis for one aggregation step: either the key is new and
the fresh singleton group is appended, or exactly the first group with
that key gets the record appended to its member list. -/
lemma addToGroups_cases (gs : List ((String × ℕ) × List FileInfo)) (f : FileInfo) :
    (fdKey f ∉ gs.map Prod.fst ∧ addToGroups gs f = gs ++ [(fdKey f, [f])]) ∨
    (∃ gs₁ l₁ gs₂, gs = gs₁ ++ (fdKey f, l₁) :: gs₂ ∧
      addToGroups gs f = gs₁ ++ (fdKey f, l₁ ++ [f]) :: gs₂) := by
  induction gs with
  | nil => exact Or.inl ⟨by simp, by simp [addToGroups]⟩
  | cons g rest ih =>
    obtain ⟨k, l⟩ := g
    by_cases hk : k = fdKey f
    · subst hk
      exact Or.inr ⟨[], l, rest, by simp, by simp [addToGroups]⟩
    · rcases ih with ⟨hmem, heq⟩ | ⟨gs₁, l₁, gs₂, hdec, heq⟩
      · refine Or.inl ⟨?_, by simp [addToGroups, hk, heq]⟩
        simp only [List.map_cons, List.mem_cons]
        exact fun hc => hc.elim (fun h => hk h.symm) hmem
      · exact Or.inr ⟨(k, l) :: gs₁, l₁, gs₂, by rw [hdec]; simp,
          by simp [addToGroups, hk, heq]⟩

/-- The invariant is preserved by one aggregation step. -/
lemma groups_inv_step {P : List FileInfo} {gs : List ((String × ℕ) × List FileInfo)}
    {f : FileInfo} (h : GroupsInv P gs) : GroupsInv (P ++ [f]) (addToGroups gs f) := by
  obtain ⟨hcontent, hnodup, hcomplete⟩ := h
  rcases addToGroups_cases gs f with ⟨hfresh, heq⟩ | ⟨gs₁, l₁, gs₂, hdec, heq⟩
  · rw [heq]
    refine ⟨?_, ?_, ?_⟩
    · intro k l hmem
      rcases List.mem_append.mp hmem with hmem | hmem
      · obtain ⟨hl, hne⟩ := hcontent k l hmem
        have hkne : fdKey f ≠ k := by
          intro hkeq
          exact hfresh (hkeq ▸ List.mem_map.mpr ⟨(k, l), hmem, rfl⟩)
        rw [filter_append_single, if_neg hkne, List.append_nil]
        exact ⟨hl, hne⟩
      · obtain ⟨rfl, rfl⟩ : k = fdKey f ∧ l = [f] := by
          simpa using hmem
        have hP : P.filter (fun g => fdKey g == fdKey f) = [] := by
          refine List.filter_eq_nil_iff.mpr fun g hg => ?_
          obtain ⟨l', hl'⟩ := hcomplete g hg
          simp only [beq_iff_eq]
          intro hkeq
          exact hfresh (hkeq ▸ List.mem_map.mpr ⟨(fdKey g, l'), hl', rfl⟩)
        rw [filter_append_single, if_pos rfl, hP, List.nil_append]
        exact ⟨rfl, by simp⟩
    · rw [List.map_append]
      refine List.Nodup.append hnodup (by simp) ?_
      intro k hk1 hk2
      simp only [List.map_cons, List.map_nil, List.mem_singleton] at hk2
      exact hfresh (hk2 ▸ hk1)
    · intro g hg
      rcases List.mem_append.mp hg with hg | hg
      · obtain ⟨l', hl'⟩ := hcomplete g hg
        exact ⟨l', List.mem_append_left _ hl'⟩
      · obtain rfl : g = f := by simpa using hg
        exact ⟨[g], List.mem_append_right _ (by simp)⟩
  · have hnd : (gs₁.map Prod.fst ++ fdKey f :: gs₂.map Prod.fst).Nodup := by
      have := hnodup
      rw [hdec] at this
      simpa using this
    obtain ⟨hnd₁, hnd₂, hdisj⟩ := List.nodup_append.mp hnd
    have hnotin₂ : fdKey f ∉ gs₂.map Prod.fst := (List.nodup_cons.mp hnd₂).1
    have hnotin₁ : fdKey f ∉ gs₁.map Prod.fst :=
      fun hmem => hdisj hmem (List.mem_cons_self _ _)
    rw [heq]
    refine ⟨?_, ?_, ?_⟩
    · intro k l hmem
      rcases List.mem_append.mp hmem with hmem | hmem
      · have hgs : (k, l) ∈ gs := by
          rw [hdec]; exact List.mem_append_left _ hmem
        obtain ⟨hl, hne⟩ := hcontent k l hgs
        have hkne : fdKey f ≠ k := by
          intro hkeq
          refine hnotin₁ ?_
          rw [hkeq]
          exact List.mem_map.mpr ⟨(k, l), hmem, rfl⟩
        rw [filter_append_single, if_neg hkne, List.append_nil]
        exact ⟨hl, hne⟩
      · rcases List.mem_cons.mp hmem with hmem | hmem
        · obtain ⟨rfl, rfl⟩ : k = fdKey f ∧ l = l₁ ++ [f] := by
            simpa using hmem
          have hgs : (fdKey f, l₁) ∈ gs := by
            rw [hdec]
            exact List.mem_append_right _ (List.mem_cons_self _ _)
          obtain ⟨hl₁, -⟩ := hcontent _ _ hgs
          rw [filter_append_single, if_pos rfl, ← hl₁]
          exact ⟨rfl, by simp⟩
        · have hgs : (k, l) ∈ gs := by
            rw [hdec]
            exact List.mem_append_right _ (List.mem_cons_of_mem _ hmem)
          obtain ⟨hl, hne⟩ := hcontent k l hgs
          have hkne : fdKey f ≠ k := by
            intro hkeq
            refine hnotin₂ ?_
            rw [hkeq]
            exact List.mem_map.mpr ⟨(k, l), hmem, rfl⟩
          rw [filter_append_single, if_neg hkne, List.append_nil]
          exact ⟨hl, hne⟩
    · have : ((gs₁ ++ (fdKey f, l₁ ++ [f]) :: gs₂).map Prod.fst)
          = gs₁.map Prod.fst ++ fdKey f :: gs₂.map Prod.fst := by simp
      rw [this]
      exact hnd
    · intro g hg
      rcases List.mem_append.mp hg with hg | hg
      · obtain ⟨l', hl'⟩ := hcomplete g hg
        rw [hdec] at hl'
        rcases List.mem_append.mp hl' with hl' | hl'
        · exact ⟨l', List.mem_append_left _ hl'⟩
        · rcases List.mem_cons.mp hl' with hl' | hl'
          · obtain ⟨hkeq, -⟩ : fdKey g = fdKey f ∧ l' = l₁ := by
              simpa using hl'
            refine ⟨l₁ ++ [f], ?_⟩
            rw [hkeq]
            exact List.mem_append_right _ (List.mem_cons_self _ _)
          · exact ⟨l', List.mem_append_right _ (List.mem_cons_of_mem _ hl')⟩
      · obtain rfl : g = f := by simpa using hg
        exact ⟨l₁ ++ [g], List.mem_append_right _ (List.mem_cons_self _ _)⟩

lemma groups_inv_foldl :
    ∀ (rest P : List FileInfo) (gs : List ((String × ℕ) × List FileInfo)),
      GroupsInv P gs → GroupsInv (P ++ rest) (rest.foldl addToGroups gs) := by
  intro rest
  induction rest with
  | nil => intro P gs h; simpa using h
  | cons f rest ih =>
    intro P gs h
    have := ih (P ++ [f]) (addToGroups gs f) (groups_inv_step h)
    simpa [List.append_assoc] using this

/-- The aggregation invariant holds of the final `file_groups` mapping. -/
lemma groups_inv (files : List FileInfo) : GroupsInv files (file_groups files) := by
  have hbase : GroupsInv [] [] :=
    ⟨fun k l h => absurd h (List.not_mem_nil _), by simp,
     fun f h => absurd h (List.not_mem_nil _)⟩
  have := groups_inv_foldl files [] [] hbase
  simpa [file_groups] using this

/-- Every group holds exactly the scanned records bearing its key, in
discovery order, and is nonempty. -/
lemma file_groups_content {files : List FileInfo} {k : String × ℕ}
    {l : List FileInfo} (h : (k, l) ∈ file_groups files) :
    l = files.filter (fun f => fdKey f == k) ∧ l ≠ [] :=
  (groups_inv files).1 k l h

/-- Every group key is the key of some scanned record. -/
lemma file_groups_key_mem {files : List FileInfo} {k : String × ℕ}
    {l : List FileInfo} (h : (k, l) ∈ file_groups files) :
    ∃ f ∈ files, fdKey f = k := by
  obtain ⟨hl, hne⟩ := file_groups_content h
  rcases l with _ | ⟨x, t⟩
  · exact absurd rfl hne
  · have hx : x ∈ files.filter (fun f => fdKey f == k) := by
      rw [← hl]; exact List.mem_cons_self _ _
    obtain ⟨hmem, hkey⟩ := List.mem_filter.mp hx
    exact ⟨x, hmem, by simpa using hkey⟩

lemma filter_key_length_le_one {files : List FileInfo}
    (h : (files.map fdKey).Nodup) (k : String × ℕ) :
    (files.filter (fun f => fdKey f == k)).length ≤ 1 := by
  induction files with
  | nil => simp
  | cons x rest ih =>
    obtain ⟨hx, hrest⟩ : (∀ g ∈ rest, ¬fdKey g = fdKey x) ∧ (rest.map fdKey).Nodup := by
      simpa using h
    by_cases hk : fdKey x == k
    · have hkeq : fdKey x = k := by simpa using hk
      have hnil : rest.filter (fun f => fdKey f == k) = [] := by
        refine List.filter_eq_nil_iff.mpr fun g hg => ?_
        simp only [beq_iff_eq]
        intro hgk
        exact hx g hg (hgk.trans hkeq.symm)
      simp [List.filter_cons, hk, hnil]
    · simpa [List.filter_cons, hk] using ih hrest

/-- When no two scanned records share a `(name, size)` key, no duplicate
group survives the `> 1` filter. -/
lemma find_duplicates_eq_nil_of_nodup_keys {files : List FileInfo}
    (h : (files.map fdKey).Nodup) : find_duplicates files = [] := by
  refine List.filter_eq_nil_iff.mpr fun g hg => ?_
  obtain ⟨k, l⟩ := g
  obtain ⟨hl, -⟩ := file_groups_content hg
  have := filter_key_length_le_one h k
  rw [← hl] at this
  simpa using Nat.not_lt.mpr this

lemma addToGroups_fresh {gs : List ((String × ℕ) × List FileInfo)} {f : FileInfo}
    (h : fdKey f ∉ gs.map Prod.fst) : addToGroups gs f = gs ++ [(fdKey f, [f])] := by
  rcases addToGroups_cases gs f with ⟨-, heq⟩ | ⟨gs₁, l₁, gs₂, hdec, -⟩
  · exact heq
  · exfalso
    refine h ?_
    rw [hdec]
    exact List.mem_map.mpr ⟨(fdKey f, l₁),
      List.mem_append_right _ (List.mem_cons_self _ _), rfl⟩

/-- Scanning one extra file whose key is fresh leaves the duplicate
groups unchanged: the new file only contributes a singleton group, which
the `> 1` filter drops. -/
lemma find_duplicates_append_fresh {files : List FileInfo} {lf : FileInfo}
    (h : ∀ f ∈ files, fdKey f ≠ fdKey lf) :
    find_duplicates (files ++ [lf]) = find_duplicates files := by
  have hfg : file_groups (files ++ [lf]) = addToGroups (file_groups files) lf := by
    rw [file_groups, List.foldl_append]
    rfl
  have hfresh : fdKey lf ∉ (file_groups files).map Prod.fst := by
    intro hmem
    obtain ⟨⟨k, l⟩, hkl, hfst⟩ := List.mem_map.mp hmem
    obtain ⟨g, hgmem, hgkey⟩ := file_groups_key_mem hkl
    exact h g hgmem (by rw [hgkey]; exact hfst)
  rw [find_duplicates, hfg, addToGroups_fresh hfresh, List.filter_append]
  simp [find_duplicates]

/-! ### Properties of the cleanup planner -/

lemma filter_ne_path_length {fl : List FileInfo} {k : FileInfo}
    (hk : k ∈ fl) (hnd : (fl.map FileInfo.path).Nodup) :
    (fl.filter fun f => f.path != k.path).length = fl.length - 1 := by
  induction fl with
  | nil => cases hk
  | cons x rest ih =>
    obtain ⟨hx, hrest⟩ : (∀ g ∈ rest, ¬g.path = x.path) ∧ (rest.map FileInfo.path).Nodup := by
      simpa using hnd
    rcases List.mem_cons.mp hk with rfl | hk
    · have hself : (k.path != k.path) = false := by simp
      have hall : rest.filter (fun f => f.path != k.path) = rest := by
        refine List.filter_eq_self.mpr fun g hg => ?_
        simpa using fun hgp => hx g hg hgp
      simp [List.filter_cons, hself, hall]
    · have hxk : (x.path != k.path) = true := by
        simpa using fun hxp => hx k hk hxp.symm
      have hlen := ih hk hrest
      have hpos : 1 ≤ rest.length := List.length_pos.mpr (List.ne_nil_of_mem hk)
      simp only [List.filter_cons, hxk, if_pos, List.length_cons, hlen]
      omega

lemma keep_not_mem_filter (fl : List FileInfo) (k : FileInfo) :
    k ∉ fl.filter fun f => f.path != k.path := by
  intro hmem
  have := (List.mem_filter.mp hmem).2
  simp at this

/-- Every non-critical duplicate group with at least two members
contributes a plan item whose keeper is the scorer's choice and whose
deletion list is the group minus the keeper (by path). -/
lemma plan_cleanup_item (now : ℚ) :
    ∀ (dups : List ((String × ℕ) × List FileInfo)) (stats : RunStats)
      (fname : String) (size : ℕ) (fl : List FileInfo),
      ((fname, size), fl) ∈ dups →
      is_critical_file fname = false →
      2 ≤ fl.length →
      (fl.map FileInfo.path).Nodup →
      ∃ item ∈ (plan_cleanup now dups stats).1,
        item.filename = fname ∧ item.size = size ∧
        select_file_to_keep now fl = some item.keep ∧
        item.delete = fl.filter (fun f => f.path != item.keep.path) ∧
        item.space_saved = size * item.delete.length := by
  intro dups
  induction dups with
  | nil => intro stats fname size fl hmem; cases hmem
  | cons g rest ih =>
    intro stats fname size fl hmem hcrit hlen hnd
    obtain ⟨⟨gn, gsz⟩, gl⟩ := g
    rcases List.mem_cons.mp hmem with heq | hmem
    · obtain ⟨⟨rfl, rfl⟩, rfl⟩ : (gn = fname ∧ gsz = size) ∧ gl = fl := by
        simpa [Prod.ext_iff] using heq.symm
      have hne : gl ≠ [] := by
        intro h
        rw [h] at hlen
        simp at hlen
      obtain ⟨keep, hsel⟩ := select_isSome now gl hne
      have hkmem : keep ∈ gl := select_mem now gl keep hsel
      have hdlen : (gl.filter fun f => f.path != keep.path).length = gl.length - 1 :=
        filter_ne_path_length hkmem hnd
      have hdne : ((gl.filter fun f => f.path != keep.path).isEmpty) = false := by
        cases h : (gl.filter fun f => f.path != keep.path) with
        | nil =>
          rw [h] at hdlen
          simp only [List.length_nil] at hdlen
          omega
        | cons a t => simp
      refine ⟨⟨gn, gsz, keep, gl.filter fun f => f.path != keep.path,
        gsz * (gl.filter fun f => f.path != keep.path).length⟩, ?_, rfl, rfl, hsel, rfl, rfl⟩
      simp only [plan_cleanup, hcrit, if_false, Bool.false_eq_true, hsel, hdne]
      exact List.mem_cons_self _ _
    · have hgoal := fun stats2 => ih stats2 fname size fl hmem hcrit hlen hnd
      simp only [plan_cleanup]
      by_cases hc : is_critical_file gn
      · simpa [hc] using hgoal _
      · rcases hsel : select_file_to_keep now gl with _ | keep
        · simpa [hc, hsel] using hgoal _
        · by_cases hde : ((gl.filter fun f => f.path != keep.path).isEmpty) = true
          · simpa [hc, hsel, hde] using hgoal _
          · obtain ⟨item, hin, hprops⟩ := hgoal
              {stats with
                files_to_delete :=
                  stats.files_to_delete + (gl.filter fun f => f.path != keep.path).length,
                space_to_save :=
                  stats.space_to_save + gsz * (gl.filter fun f => f.path != keep.path).length}
            refine ⟨item, ?_, hprops⟩
            simp only [hc, if_false, Bool.false_eq_true, hsel, hde]
            exact List.mem_cons_of_mem _ hin

/-- The planner's final counters are the input counters plus the sums
over the produced plan items. -/
lemma plan_cleanup_stats (now : ℚ) :
    ∀ (dups : List ((String × ℕ) × List FileInfo)) (stats : RunStats),
      (plan_cleanup now dups stats).2.files_to_delete
          = stats.files_to_delete
            + ((plan_cleanup now dups stats).1.map fun i => i.delete.length).sum
      ∧ (plan_cleanup now dups stats).2.space_to_save
          = stats.space_to_save
            + ((plan_cleanup now dups stats).1.map fun i => i.space_saved).sum := by
  intro dups
  induction dups with
  | nil => intro stats; simp [plan_cleanup]
  | cons g rest ih =>
    intro stats
    obtain ⟨⟨gn, gsz⟩, gl⟩ := g
    simp only [plan_cleanup]
    by_cases hc : is_critical_file gn
    · simpa [hc] using ih _
    · rcases hsel : select_file_to_keep now gl with _ | keep
      · simpa [hc, hsel] using ih _
      · by_cases hde : ((gl.filter fun f => f.path != keep.path).isEmpty) = true
        · simpa [hc, hsel, hde] using ih _
        · have := ih {stats with
            files_to_delete :=
              stats.files_to_delete + (gl.filter fun f => f.path != keep.path).length,
            space_to_save :=
              stats.space_to_save + gsz * (gl.filter fun f => f.path != keep.path).length}
          simp only [hc, if_false, Bool.false_eq_true, hsel,
            Bool.not_eq_true] at hde ⊢
          simp only [hde, Bool.false_eq_true, if_false, List.map_cons, List.sum_cons]
          refine ⟨?_, ?_⟩
          · rw [this.1]; simp [Nat.add_assoc]
          · rw [this.2]; simp [Nat.add_assoc]

/-- The plan produced by the planner depends neither on the stats
accumulator it threads nor on the wall-clock instant. -/
lemma plan_cleanup_plan_congr (now now₂ : ℚ) :
    ∀ (dups : List ((String × ℕ) × List FileInfo)) (stats stats₂ : RunStats),
      (plan_cleanup now dups stats).1 = (plan_cleanup now₂ dups stats₂).1 := by
  intro dups
  induction dups with
  | nil => intro stats stats₂; rfl
  | cons g rest ih =>
    intro stats stats₂
    obtain ⟨⟨gn, gsz⟩, gl⟩ := g
    simp only [plan_cleanup]
    by_cases hc : is_critical_file gn
    · simpa [hc] using ih _ _
    · rw [select_now_invariant now now₂ gl]
      rcases hsel : select_file_to_keep now₂ gl with _ | keep
      · simpa [hc, hsel] using ih _ _
      · by_cases hde : ((gl.filter fun f => f.path != keep.path).isEmpty) = true
        · simpa [hc, hsel, hde] using ih _ _
        · simp only [hc, if_false, Bool.false_eq_true, hsel, Bool.not_eq_true] at hde ⊢
          simp only [hde, Bool.false_eq_true, if_false, List.cons.injEq, true_and]
          exact ih _ _

/-! ### Properties of the execution engine -/

/-- With the backup flag set, every delete entry takes the shadowed
attribute path: one `TypeError` failure is recorded per entry and
nothing else changes. -/
lemma exec_deletes_backup (cfg : Config) (now : ℚ) (kp : String)
    (hcb : cfg.create_backup = true) :
    ∀ (fl : List FileInfo) (st : ExecState),
      exec_deletes cfg now kp fl st =
        {st with stats := {st.stats with errors :=
          (st.stats.errors ++ fl.map (fun f => delete_failed_type_error f.path))}} := by
  intro fl
  induction fl with
  | nil => intro st; simp [exec_deletes]
  | cons f rest ih =>
    intro st
    simp only [exec_deletes, exec_delete, hcb, if_true, List.map_cons]
    rw [ih]
    simp [List.append_assoc]

/-- Iterating the whole plan with the backup flag set only accumulates
one `TypeError` record per delete entry. -/
lemma exec_items_backup (cfg : Config) (now : ℚ) (hcb : cfg.create_backup = true) :
    ∀ (plan : List PlanItem) (st : ExecState),
      exec_items cfg now plan st =
        {st with stats := {st.stats with errors :=
          (st.stats.errors
            ++ (plan.map (fun item =>
                  item.delete.map (fun f => delete_failed_type_error f.path))).flatten)}} := by
  intro plan
  induction plan with
  | nil => intro st; simp [exec_items]
  | cons item rest ih =>
    intro st
    simp only [exec_items, List.map_cons, List.flatten_cons]
    rw [exec_deletes_backup cfg now item.keep.path hcb, ih]
    simp [List.append_assoc]

/-! ### Properties of one full run -/

/-- In dry-run mode the only filesystem effect of a run is the log file
appended by `save_log` (and even that only when duplicates were found,
because `run` returns early otherwise); nothing is deleted, no backup is
made, and no action is logged. -/
lemma run_dry_frame {cfg : Config} (now : ℚ) (fs : List FileInfo)
    (hdry : cfg.dry_run = true) :
    (run cfg now fs).fs
        = fs ++ (if (find_duplicates fs).isEmpty then [] else [log_file_info cfg])
      ∧ (run cfg now fs).actions = []
      ∧ (run cfg now fs).backups = [] := by
  cases h : (find_duplicates fs).isEmpty
  · simp [run, h, hdry, execute_cleanup]
  · simp [run, h, hdry, execute_cleanup]

/-- The plan field of a run is exactly what the planner produces from
the scan. -/
lemma run_plan (cfg : Config) (now : ℚ) (fs : List FileInfo) :
    (run cfg now fs).plan
      = (plan_cleanup now (find_duplicates fs)
          ⟨fs.length, (find_duplicates fs).length, 0, 0, 0, []⟩).1 := by
  cases h : (find_duplicates fs).isEmpty
  · simp only [run, h, Bool.false_eq_true, if_false]
    split
    · rfl
    · rfl
  · have hnil : find_duplicates fs = [] := by simpa using h
    simp [run, h, hnil, plan_cleanup]

/-- A second dry run scanning the filesystem left by a first dry run
computes the same plan, as long as the first run's log file has a fresh
`(name, size)` key. -/
lemma run_dry_plan_stable {cfg cfg₂ : Config} (now now₂ : ℚ) (fs : List FileInfo)
    (hdry : cfg.dry_run = true)
    (hfresh : ∀ f ∈ fs, fdKey f ≠ fdKey (log_file_info cfg)) :
    (run cfg₂ now₂ (run cfg now fs).fs).plan = (run cfg now fs).plan := by
  obtain ⟨hfs, -, -⟩ := run_dry_frame now fs hdry
  rw [run_plan, run_plan, hfs]
  cases h : (find_duplicates fs).isEmpty
  · rw [if_neg (by simp [h]), find_duplicates_append_fresh hfresh]
    exact plan_cleanup_plan_congr now₂ now _ _ _
  · rw [if_pos (by simp [h]), List.append_nil]
    exact plan_cleanup_plan_congr now₂ now _ _ _

/-! ### Claims -/

/-- C1 (code bug): the spec's backup-before-delete law names the
intended behaviour, but in live mode with backup enabled the boolean
attribute shadowing the `create_backup` method makes every per-file
backup call raise `TypeError`, so at this failing input no backup is
created, the file survives, no action is logged, one error is recorded
— even though the real backup routine would have succeeded there. -/
theorem c1_backup_before_delete_dead :
    (execute_cleanup cfgLiveBackup 0 samplePlan sampleState).fs = sampleState.fs
    ∧ (execute_cleanup cfgLiveBackup 0 samplePlan sampleState).backups = []
    ∧ (execute_cleanup cfgLiveBackup 0 samplePlan sampleState).actions = []
    ∧ (execute_cleanup cfgLiveBackup 0 samplePlan sampleState).stats.errors
        = [delete_failed_type_error "ws/a/report.txt"]
    ∧ (create_backup_method cfgLiveBackup sampleState "ws/a/report.txt").1 = true :=
  ⟨rfl, rfl, rfl, rfl, rfl⟩

/-- C2: in live mode with the backup flag set, the shadowed-attribute
`TypeError` is raised and caught for every delete entry of the plan:
the filesystem, action log, backups and success count are untouched,
and exactly one error per delete entry is appended to the stats. -/
theorem c2_shadowed_backup_blocks_all_deletions
    (cfg : Config) (now : ℚ) (plan : List PlanItem) (st : ExecState)
    (hlive : cfg.dry_run = false) (hcb : cfg.create_backup = true) :
    (execute_cleanup cfg now plan st).fs = st.fs
    ∧ (execute_cleanup cfg now plan st).actions = st.actions
    ∧ (execute_cleanup cfg now plan st).backups = st.backups
    ∧ (execute_cleanup cfg now plan st).success_count = st.success_count
    ∧ (execute_cleanup cfg now plan st).stats.errors
        = st.stats.errors
          ++ (plan.map (fun item =>
                item.delete.map (fun f => delete_failed_type_error f.path))).flatten := by
  have h := exec_items_backup cfg now hcb plan st
  simp [execute_cleanup, hlive, h]

/-- Witness for C2 at a concrete live-with-backup configuration, plan
and state. -/
theorem c2_shadowed_backup_blocks_all_deletions_witness :
    (cfgLiveBackup.dry_run = false ∧ cfgLiveBackup.create_backup = true)
    ∧ ((execute_cleanup cfgLiveBackup 0 samplePlan sampleState).fs = sampleState.fs
      ∧ (execute_cleanup cfgLiveBackup 0 samplePlan sampleState).actions = sampleState.actions
      ∧ (execute_cleanup cfgLiveBackup 0 samplePlan sampleState).backups = sampleState.backups
      ∧ (execute_cleanup cfgLiveBackup 0 samplePlan sampleState).success_count
          = sampleState.success_count
      ∧ (execute_cleanup cfgLiveBackup 0 samplePlan sampleState).stats.errors
          = sampleState.stats.errors
            ++ (samplePlan.map (fun item =>
                  item.delete.map (fun f => delete_failed_type_error f.path))).flatten) :=
  ⟨⟨rfl, rfl⟩,
   c2_shadowed_backup_blocks_all_deletions cfgLiveBackup 0 samplePlan sampleState rfl rfl⟩

/-- C3 counterexample: even in dry-run mode a run over a workspace with
duplicates changes the filesystem — `save_log` writes the timestamped
log file into the workspace, so the claim that no file is created is
false at this input. -/
theorem c3_dry_run_mutates_counterexample :
    ¬ (run cfgDry 0 dupFiles).fs = dupFiles := by
  obtain ⟨hfs, -, -⟩ := @run_dry_frame cfgDry 0 dupFiles rfl
  rw [hfs]
  have hne : (find_duplicates dupFiles).isEmpty = false := rfl
  rw [hne]
  intro h
  have hlen := congrArg List.length h
  simp [dupFiles] at hlen

/-- C3 (amended): a dry run deletes nothing, backs up nothing and logs
no action; its only filesystem effect is appending the run's log file
(when duplicates were found at all).  A second dry run over the
filesystem the first one left behind — unchanged externally, with the
log file's `(name, size)` key fresh — computes an identical plan. -/
theorem c3_dry_run_frame_and_plan (cfg cfg₂ : Config) (now now₂ : ℚ)
    (fs : List FileInfo) (hdry : cfg.dry_run = true) (hdry₂ : cfg₂.dry_run = true)
    (hfresh : ∀ f ∈ fs, fdKey f ≠ fdKey (log_file_info cfg)) :
    (run cfg now fs).fs
        = fs ++ (if (find_duplicates fs).isEmpty then [] else [log_file_info cfg])
    ∧ (run cfg now fs).actions = []
    ∧ (run cfg now fs).backups = []
    ∧ (run cfg₂ now₂ (run cfg now fs).fs).plan = (run cfg now fs).plan := by
  obtain ⟨h1, h2, h3⟩ := run_dry_frame now fs hdry
  exact ⟨h1, h2, h3, run_dry_plan_stable now now₂ fs hdry hfresh⟩

/-- Witness for C3 at a concrete dry-run configuration and scan. -/
theorem c3_dry_run_frame_and_plan_witness :
    (cfgDry.dry_run = true
      ∧ (∀ f ∈ dupFiles, fdKey f ≠ fdKey (log_file_info cfgDry)))
    ∧ ((run cfgDry 0 dupFiles).fs
          = dupFiles
            ++ (if (find_duplicates dupFiles).isEmpty then [] else [log_file_info cfgDry])
      ∧ (run cfgDry 0 dupFiles).actions = []
      ∧ (run cfgDry 0 dupFiles).backups = []
      ∧ (run cfgDry 1 (run cfgDry 0 dupFiles).fs).plan = (run cfgDry 0 dupFiles).plan) :=
  ⟨⟨rfl, by decide⟩,
   c3_dry_run_frame_and_plan cfgDry cfgDry 0 1 dupFiles rfl rfl (by decide)⟩

/-- C4: every non-critical duplicate group (with pairwise-distinct
paths and at least two members) yields a plan item whose keeper is the
scorer's choice and a member of the group, whose delete list is the
group minus the keeper with exactly `group size - 1` entries not
containing the keeper, and whose space accounting is
`size * len(delete)`; and the run counters accumulate exactly these
quantities over the produced plan. -/
theorem c4_planner_correct (now : ℚ)
    (dups : List ((String × ℕ) × List FileInfo)) (stats : RunStats) :
    (∀ (fname : String) (size : ℕ) (fl : List FileInfo),
      ((fname, size), fl) ∈ dups →
      is_critical_file fname = false →
      2 ≤ fl.length →
      (fl.map FileInfo.path).Nodup →
      ∃ item ∈ (plan_cleanup now dups stats).1,
        item.filename = fname ∧ item.size = size ∧
        select_file_to_keep now fl = some item.keep ∧
        item.keep ∈ fl ∧
        item.delete = fl.filter (fun f => f.path != item.keep.path) ∧
        item.delete.length = fl.length - 1 ∧
        item.keep ∉ item.delete ∧
        item.space_saved = size * item.delete.length)
    ∧ (plan_cleanup now dups stats).2.files_to_delete
        = stats.files_to_delete
          + ((plan_cleanup now dups stats).1.map (fun i => i.delete.length)).sum
    ∧ (plan_cleanup now dups stats).2.space_to_save
        = stats.space_to_save
          + ((plan_cleanup now dups stats).1.map (fun i => i.space_saved)).sum := by
  refine ⟨?_, (plan_cleanup_stats now dups stats).1, (plan_cleanup_stats now dups stats).2⟩
  intro fname size fl hmem hcrit hlen hnd
  obtain ⟨item, hin, h1, h2, hsel, hdel, hsp⟩ :=
    plan_cleanup_item now dups stats fname size fl hmem hcrit hlen hnd
  have hkmem : item.keep ∈ fl := select_mem now fl item.keep hsel
  refine ⟨item, hin, h1, h2, hsel, hkmem, hdel, ?_, ?_, hsp⟩
  · rw [hdel]
    exact filter_ne_path_length hkmem hnd
  · rw [hdel]
    exact keep_not_mem_filter fl item.keep

/-- Witness for C4 at a concrete single-group duplicates map. -/
theorem c4_planner_correct_witness :
    ((("report.txt", 100), dupFiles) ∈ [((("report.txt", 100) : String × ℕ), dupFiles)]
      ∧ is_critical_file "report.txt" = false
      ∧ 2 ≤ dupFiles.length
      ∧ (dupFiles.map FileInfo.path).Nodup)
    ∧ (∃ item ∈ (plan_cleanup 0 [((("report.txt", 100) : String × ℕ), dupFiles)]
          ⟨2, 1, 0, 0, 0, []⟩).1,
        item.filename = "report.txt" ∧ item.size = 100 ∧
        select_file_to_keep 0 dupFiles = some item.keep ∧
        item.keep ∈ dupFiles ∧
        item.delete = dupFiles.filter (fun f => f.path != item.keep.path) ∧
        item.delete.length = dupFiles.length - 1 ∧
        item.keep ∉ item.delete ∧
        item.space_saved = 100 * item.delete.length) :=
  ⟨⟨List.mem_singleton.mpr rfl, rfl, by decide, by decide⟩,
   (c4_planner_correct 0 [((("report.txt", 100) : String × ℕ), dupFiles)]
      ⟨2, 1, 0, 0, 0, []⟩).1 "report.txt" 100 dupFiles
      (List.mem_singleton.mpr rfl) rfl (by decide) (by decide)⟩

/-- C5: for every nonempty group the scorer returns a keeper that is
the earliest-positioned member attaining the maximal total score —
everything strictly before it in input order scores strictly lower, and
nothing in the group scores higher (so equal-scoring candidates lose to
the first-seen one, reproducing the stable descending sort). -/
theorem c5_tie_break_first_seen (now : ℚ) (fl : List FileInfo) (h : fl ≠ []) :
    ∃ keep pre post, select_file_to_keep now fl = some keep ∧
      fl = pre ++ keep :: post ∧
      (∀ a ∈ pre, file_score now a < file_score now keep) ∧
      (∀ a ∈ fl, file_score now a ≤ file_score now keep) :=
  select_first_max now fl h

/-- Witness for C5 at a concrete two-member group. -/
theorem c5_tie_break_first_seen_witness :
    dupFiles ≠ []
    ∧ (∃ keep pre post, select_file_to_keep 0 dupFiles = some keep ∧
        dupFiles = pre ++ keep :: post ∧
        (∀ a ∈ pre, file_score 0 a < file_score 0 keep) ∧
        (∀ a ∈ dupFiles, file_score 0 a ≤ file_score 0 keep)) :=
  ⟨List.cons_ne_nil _ _, c5_tie_break_first_seen 0 dupFiles (List.cons_ne_nil _ _)⟩

/-- C6: evaluating the scorer at two different wall-clock instants
shifts every candidate's total score by the same constant, so the
selected keeper is identical — the scorer is deterministic across
repeated invocations on identical inputs. -/
theorem c6_scorer_determinism (now now₂ : ℚ) (fl : List FileInfo) :
    (∀ f : FileInfo, file_score now f - file_score now₂ f = (now - now₂) / 86400 / 365)
    ∧ select_file_to_keep now fl = select_file_to_keep now₂ fl :=
  ⟨fun f => by rw [file_score_shift now now₂ f]; ring,
   select_now_invariant now now₂ fl⟩

/-- C7 counterexample: the code divides the age by 365-day years, not
365.25-day years; at one 365-day year of age the bonus is 1, while the
claimed formula gives 1460/1461. -/
theorem c7_age_bonus_counterexample :
    ¬ (age_bonus 31536000 0 = (31536000 - 0) / 86400 / (365.25 : ℚ)) := by
  norm_num [age_bonus]

/-- C7 (amended): the age bonus is `(now - modified) / 86400 / 365`
(fractional 365-day years), the total score is rule points plus that
bonus, and of two candidates with equal paths the older scores higher
by exactly the modification-time difference in those units. -/
theorem c7_age_bonus_365 (now : ℚ) (f g : FileInfo) (hpath : f.path = g.path) :
    age_bonus now f.modified = (now - f.modified) / 86400 / 365
    ∧ file_score now f = rule_score f.path + age_bonus now f.modified
    ∧ file_score now f - file_score now g = (g.modified - f.modified) / 86400 / 365 := by
  refine ⟨rfl, rfl, ?_⟩
  rw [file_score, file_score, hpath]
  ring

/-- Witness for C7 at two concrete records sharing a path. -/
theorem c7_age_bonus_365_witness :
    fileB.path = fileB2.path
    ∧ (age_bonus 0 fileB.modified = (0 - fileB.modified) / 86400 / 365
      ∧ file_score 0 fileB = rule_score fileB.path + age_bonus 0 fileB.modified
      ∧ file_score 0 fileB - file_score 0 fileB2
          = (fileB2.modified - fileB.modified) / 86400 / 365) :=
  ⟨rfl, c7_age_bonus_365 0 fileB fileB2 rfl⟩

/-- C8 counterexample: a scan whose files all share one `(name, size)`
key yields ONE duplicate group, not zero — the claim's first half is
false whenever at least two files share the single key. -/
theorem c8_single_key_counterexample :
    (∀ f ∈ dupFiles, fdKey f = ("report.txt", 100))
    ∧ find_duplicates dupFiles ≠ [] := by
  refine ⟨by decide, ?_⟩
  have hlen : (find_duplicates dupFiles).length = 1 := rfl
  intro h
  rw [h] at hlen
  simp at hlen

/-- C8 (amended): when no two scanned files share a `(name, size)` key
the grouping yields zero duplicate groups; in general every group holds
exactly the scanned files with its key, and the duplicate groups are
exactly the groups with at least two members. -/
theorem c8_grouping_engine (files : List FileInfo) :
    ((files.map fdKey).Nodup → find_duplicates files = [])
    ∧ (∀ (k : String × ℕ) (l : List FileInfo),
        (k, l) ∈ file_groups files → l = files.filter (fun f => fdKey f == k))
    ∧ (∀ (k : String × ℕ) (l : List FileInfo),
        (k, l) ∈ find_duplicates files ↔ (k, l) ∈ file_groups files ∧ 2 ≤ l.length) := by
  refine ⟨fun h => find_duplicates_eq_nil_of_nodup_keys h,
    fun k l h => (file_groups_content h).1, fun k l => ?_⟩
  constructor
  · intro h
    obtain ⟨h1, h2⟩ := List.mem_filter.mp h
    exact ⟨h1, by simpa using h2⟩
  · rintro ⟨h1, h2⟩
    exact List.mem_filter.mpr ⟨h1, by simpa using h2⟩

/-- Witness for C8: a key-distinct scan yields no groups, and the
concrete duplicate pair's group holds exactly the matching files. -/
theorem c8_grouping_engine_witness :
    (([fileA].map fdKey).Nodup
      ∧ (("report.txt", 100), dupFiles) ∈ file_groups dupFiles)
    ∧ (find_duplicates [fileA] = []
      ∧ dupFiles = dupFiles.filter (fun f => fdKey f == ("report.txt", 100))) :=
  ⟨⟨by decide, List.mem_singleton.mpr rfl⟩,
   (c8_grouping_engine [fileA]).1 (by decide),
   (c8_grouping_engine dupFiles).2.1 ("report.txt", 100) dupFiles
     (List.mem_singleton.mpr rfl)⟩

/-- C9 counterexample: at the path `docs/.hidden` the base name is
hidden yet rule 4 still awards its points, because the code tests the
whole path string rather than the base name. -/
theorem c9_hidden_rule_counterexample :
    preservation_rule4 "docs/.hidden" = true
    ∧ strStartsWith (basename "docs/.hidden") "." = true
    ∧ ¬ (preservation_rule4 "docs/.hidden"
          = !(strStartsWith (basename "docs/.hidden") ".")) := by
  refine ⟨rfl, rfl, ?_⟩
  decide

/-- C9 (amended): rule 4 awards its points exactly when the WHOLE path
string does not start with a dot, contributing 3 of the rule points
(weight `6 - 3`) to the total. -/
theorem c9_hidden_rule_full_path (p : String) :
    preservation_rule4 p = !(strStartsWith p ".")
    ∧ rule_score p = rule_score_without4 p + (if strStartsWith p "." then 0 else 3) := by
  refine ⟨rfl, ?_⟩
  cases h : strStartsWith p "." <;>
    simp [rule_score, rule_score_without4, preservation_rule4, h] <;> ring

/-- C10 counterexample: a workspace path that exists as a regular file
passes the startup gate — the code checks only `os.path.exists`, never
that the path is a directory, so it does not exit with status 1. -/
theorem c10_gate_counterexample :
    fsWithFile "ws" = some FSNode.file
    ∧ main_gate fsWithFile "ws" = Except.ok ()
    ∧ ¬ (main_gate fsWithFile "ws" = Except.error 1) := by
  refine ⟨rfl, rfl, ?_⟩
  intro h
  simp [main_gate, workspace_exists, fsWithFile] at h

/-- C10 (amended): the startup gate exits with status 1 exactly when
the workspace path does not exist at all, and proceeds to scan for
every existing path — directory or not. -/
theorem c10_workspace_gate (fs : String → Option FSNode) (p : String) :
    (main_gate fs p = Except.error 1 ↔ fs p = none)
    ∧ (main_gate fs p = Except.ok () ↔ (fs p).isSome = true) := by
  cases h : fs p <;> simp [main_gate, workspace_exists, h]
